import Mathlib

/-!
A shallow embedding of `src/lib.rs` of the ringheap.rs repository: a binary
min-heap stored inside a ring buffer that is built on top of a `Vec`, whose
`len` is used as the ring-buffer capacity.  `usize` is modelled as `Nat`,
with the wrap-around of release-mode Rust made explicit (via `usizeSub` and
`% usizeW`) at the arithmetic sites where an underflow or overflow is
reachable; the element type `T` is instantiated at `Int` (the repository's
tests use `i32`).  Fallible or possibly non-terminating code is
`Option`-valued.
-/

/-- The modulus of Rust `usize` arithmetic, `2 ^ 64`. -/
def usizeW : Nat := 18446744073709551616

/-- Wrapping `usize` subtraction `a - b`, as release-mode Rust computes it
(for `a, b < usizeW` this is `(a - b) mod 2 ^ 64`). -/
def usizeSub (a b : Nat) : Nat := (a + (usizeW - b)) % usizeW

/-- Model of Rust `Vec<i32>`: `elems` holds the initialised elements
(`Vec::len` of them), and `alloc` models `Vec::capacity`, the size of the
allocation.  `Vec::with_capacity cap` guarantees an allocation of at least
`cap` slots; it is modelled as exactly `cap`, and `Vec::resize` never
shrinks the allocation. -/
structure RVec where
  elems : List Int
  alloc : Nat
  deriving DecidableEq

/-- Model of `Vec::with_capacity(cap)`: no initialised elements, `cap`
allocated slots. -/
def RVec.withCapacity (cap : Nat) : RVec := ⟨[], cap⟩

/-- Model of the index-assignment `v[i] = x` (in-bounds in all reachable
calls; an out-of-bounds index, where Rust would panic, is a no-op here). -/
def RVec.setE (v : RVec) (i : Nat) (x : Int) : RVec :=
  ⟨v.elems.set i x, v.alloc⟩

/-- Model of `Vec::swap(i, j)` (in-bounds in all reachable calls). -/
def RVec.swapE (v : RVec) (i j : Nat) : RVec :=
  ⟨(v.elems.set i (v.elems.getD j 0)).set j (v.elems.getD i 0), v.alloc⟩

/-- Model of `Vec::resize(n, x)`: truncate to `n` elements, or extend with
copies of `x` up to `n` elements; the allocation grows to at least `n`. -/
def RVec.resize (v : RVec) (n : Nat) (x : Int) : RVec :=
  if n ≤ v.elems.length then ⟨v.elems.take n, max v.alloc n⟩
  else ⟨v.elems ++ List.replicate (n - v.elems.length) x, max v.alloc n⟩

/-- Copy `n` elements of `l` starting at index `src` to the positions
starting at index `dst`, reading from the original list (the two regions
are disjoint in the one call site, `grow`). -/
def listCopyWithin (l : List Int) (src dst : Nat) : Nat → List Int
  | 0 => l
  | n + 1 => (listCopyWithin l src dst n).set (dst + n) (l.getD (src + n) 0)

/-- Model of `slice::copy_within(src..src + n, dst)`. -/
def RVec.copyWithin (v : RVec) (src dst n : Nat) : RVec :=
  ⟨listCopyWithin v.elems src dst n, v.alloc⟩

/-- The `RingHeap<i32>` struct: ring storage `data`, physical offset
`start` of logical index 0, physical offset `end_` one past the logical
last element (`end` in the source, which is a Lean keyword), and the live
element count `len`. -/
structure RingHeap where
  data : RVec
  start : Nat
  end_ : Nat
  len : Nat
  deriving DecidableEq

/-- Model of `RingHeap::with_capacity(cap)`. -/
def RingHeap.with_capacity (cap : Nat) : RingHeap :=
  ⟨RVec.withCapacity cap, 0, 0, 0⟩

/-- Model of `RingHeap::new()`. -/
def RingHeap.new : RingHeap := RingHeap.with_capacity 1

/-- Model of `RingHeap::clear`. -/
def RingHeap.clear (s : RingHeap) : RingHeap :=
  { s with start := 0, end_ := 0, len := 0 }

/-- Model of `real_idx`: `(self.start + i) % self.data.len()`, with the
release-mode wrap of the `usize` addition made explicit. -/
def RingHeap.real_idx (s : RingHeap) (i : Nat) : Nat :=
  ((s.start + i) % usizeW) % s.data.elems.length

/-- Model of `parent_idx`: `(i - 1) / 2`; the subtraction wraps (as in
release-mode Rust) when `i = 0`, which is reachable from `insert`. -/
def RingHeap.parent_idx (i : Nat) : Nat := usizeSub i 1 / 2

/-- Model of `left_child_idx`: `1 + 2 * i` (no overflow for any index that
reaches a comparison, since `i` is then below the storage length). -/
def RingHeap.left_child_idx (i : Nat) : Nat := 1 + 2 * i

/-- Model of `right_child_idx`: `2 + 2 * i`. -/
def RingHeap.right_child_idx (i : Nat) : Nat := 2 + 2 * i

/-- Model of `get` in release mode: `self.data[self.real_idx(i)]`.  The
debug-only assertion `i < self.len` is modelled separately (see
`heapify_up_dbg`). -/
def RingHeap.get (s : RingHeap) (i : Nat) : Int :=
  s.data.elems.getD (s.real_idx i) 0

/-- Model of `set` in release mode (dead code in the source, kept for
completeness). -/
def RingHeap.set (s : RingHeap) (i : Nat) (x : Int) : RingHeap :=
  { s with data := s.data.setE (s.real_idx i) x }

/-- Model of `swap`: swap the storage slots behind logical indices `i`
and `j`. -/
def RingHeap.swap (s : RingHeap) (i j : Nat) : RingHeap :=
  { s with data := s.data.swapE (s.real_idx i) (s.real_idx j) }

/-- Model of `grow`: double the storage (at least to 2), filling the new
slots with `x`, and if the live window wraps (`start > end`) relocate the
wrapped tail of `old_len - start` elements to the top of the extended
buffer. -/
def RingHeap.grow (s : RingHeap) (x : Int) : RingHeap :=
  let old_len := s.data.elems.length
  let new_len := max 2 (2 * old_len)
  let d := s.data.resize new_len x
  if s.start > s.end_ then
    let n_to_move := usizeSub old_len s.start
    let new_start := usizeSub new_len n_to_move
    { s with data := d.copyWithin s.start new_start n_to_move,
             start := new_start }
  else
    { s with data := d }

/-- Model of `push`: grow if `len + 1 >= data.len()`, write `x` at the
physical offset `end`, advance `end` with wrap-around, increment `len`. -/
def RingHeap.push (s : RingHeap) (x : Int) : RingHeap :=
  let s1 := if s.len + 1 ≥ s.data.elems.length then s.grow x else s
  let s2 := { s1 with data := s1.data.setE s1.end_ x }
  { s2 with end_ := (s2.end_ + 1) % s2.data.elems.length, len := s2.len + 1 }

/-- Model of `peek`. -/
def RingHeap.peek (s : RingHeap) : Option Int :=
  if 0 < s.len then some (s.data.elems.getD s.start 0) else none

/-- Fuel bound used when running `heapify_up`.  The source recursion
`i -> (i - 1) / 2` strictly decreases except at `i = 0`, where the
release-mode wrap restarts it at `2 ^ 63 - 1`; each descent takes at most
64 steps, so 200 steps cover every run considered in this file (`none`
signals that the recursion did not stop within the fuel). -/
def siftUpFuel : Nat := 200

/-- Model of `heapify_up` (release mode): stop when the passed index
equals `self.start`, otherwise swap with the parent index while the
parent's element is greater. -/
def RingHeap.heapify_up : Nat → RingHeap → Nat → Option RingHeap
  | 0, _, _ => none
  | fuel + 1, s, i =>
    if i = s.start then some s
    else
      let p := RingHeap.parent_idx i
      if s.get p > s.get i then RingHeap.heapify_up fuel (s.swap i p) p
      else some s

/-- Model of `insert`: push `x`, then sift up from the physical index of
the slot just written (`data.len() - 1` if `end` wrapped to 0, else
`end - 1`). -/
def RingHeap.insert (s : RingHeap) (x : Int) : Option RingHeap :=
  let s1 := s.push x
  let idx := if s1.end_ = 0 then usizeSub s1.data.elems.length 1
             else usizeSub s1.end_ 1
  RingHeap.heapify_up siftUpFuel s1 idx

/-- Fuel-indexed model of `heapify_down`.  The recursion moves from `i` to
a child index `> i` that is `< self.len`, so it always stops within
`self.len + 1` steps; the fuel-0 default is never reached when called
through `heapify_down` (see `heapifyDownF_stable`). -/
def RingHeap.heapifyDownF : Nat → RingHeap → Nat → RingHeap
  | 0, s, _ => s
  | fuel + 1, s, i =>
    let l := RingHeap.left_child_idx i
    let r := RingHeap.right_child_idx i
    if i > s.len ∨ l ≥ s.len then s
    else
      let left_val := s.get l
      let this_val := s.get i
      if r ≥ s.len then
        if this_val > left_val then RingHeap.heapifyDownF fuel (s.swap i l) l
        else s
      else
        let right_val := s.get r
        if left_val > right_val ∧ this_val > right_val then
          RingHeap.heapifyDownF fuel (s.swap i r) r
        else if right_val > left_val ∧ this_val > left_val then
          RingHeap.heapifyDownF fuel (s.swap i l) l
        else s

/-- Model of `heapify_down`, run with enough fuel for its recursion to
stop on its own. -/
def RingHeap.heapify_down (s : RingHeap) (i : Nat) : RingHeap :=
  RingHeap.heapifyDownF (s.len + 1) s i

/-- Model of `pop`: if non-empty, read the element at physical offset
`start`, advance `start` with wrap-around, decrement `len`, sift down from
logical index 0, and return the captured element. -/
def RingHeap.pop (s : RingHeap) : Option Int × RingHeap :=
  if 0 < s.len then
    let x := s.data.elems.getD s.start 0
    let s1 := { s with start := (s.start + 1) % s.data.elems.length,
                       len := s.len - 1 }
    (some x, s1.heapify_down 0)
  else (none, s)

/-- Debug-mode variant of `heapify_up`: `none` when a debug-mode panic
fires, namely the `debug_assert!(i < self.len)` inside `get`, or the
`usize` underflow `i - 1` inside `parent_idx` (debug-mode Rust panics on
overflow). -/
def RingHeap.heapify_up_dbg : Nat → RingHeap → Nat → Option RingHeap
  | 0, _, _ => none
  | fuel + 1, s, i =>
    if i = s.start then some s
    else if i = 0 then none
    else
      let p := RingHeap.parent_idx i
      if p < s.len ∧ i < s.len then
        if s.get p > s.get i then RingHeap.heapify_up_dbg fuel (s.swap i p) p
        else some s
      else none

/-- Debug-mode variant of `insert`, built on `heapify_up_dbg`. -/
def RingHeap.insert_dbg (s : RingHeap) (x : Int) : Option RingHeap :=
  let s1 := s.push x
  let idx := if s1.end_ = 0 then s1.data.elems.length - 1 else s1.end_ - 1
  RingHeap.heapify_up_dbg siftUpFuel s1 idx

/-- A public operation on the heap. -/
inductive Op where
  | ins : Int → Op
  | pop : Op
  | peek : Op
  | clear : Op
  deriving DecidableEq

/-- Run one public operation; `pop` and `peek` emit their result. -/
def applyOp (s : RingHeap) : Op → Option (RingHeap × List (Option Int))
  | Op.ins x => (s.insert x).map (fun t => (t, []))
  | Op.pop => some ((s.pop).2, [(s.pop).1])
  | Op.peek => some (s, [s.peek])
  | Op.clear => some (s.clear, [])

/-- Run a list of public operations from a state, collecting the outputs
of the `pop` and `peek` operations in order. -/
def runOps (s : RingHeap) : List Op → Option (RingHeap × List (Option Int))
  | [] => some (s, [])
  | op :: rest =>
    match applyOp s op with
    | none => none
    | some (t, out) => (runOps t rest).map (fun q => (q.1, out ++ q.2))

/-- The binary-heap property over the logical index space: every live
logical index is `≤` each of its live children. -/
def heapProp (s : RingHeap) : Prop :=
  ∀ i, i < s.len →
    (RingHeap.left_child_idx i < s.len →
      s.get i ≤ s.get (RingHeap.left_child_idx i)) ∧
    (RingHeap.right_child_idx i < s.len →
      s.get i ≤ s.get (RingHeap.right_child_idx i))

/-- The ring-buffer well-formedness invariant of reachable states: an
empty storage only in the pristine all-zero state, otherwise `start` in
range and `len` strictly below the capacity, `end` determined by `start`
and `len`, and a physically realisable storage size. -/
def HeapInv (s : RingHeap) : Prop :=
  (s.data.elems.length = 0 → s.start = 0 ∧ s.end_ = 0 ∧ s.len = 0) ∧
  (0 < s.data.elems.length →
    s.start < s.data.elems.length ∧ s.len < s.data.elems.length) ∧
  s.end_ = (s.start + s.len) % s.data.elems.length ∧
  s.data.elems.length < 2 ^ 62

instance (s : RingHeap) : Decidable (heapProp s) := by
  unfold heapProp
  infer_instance

instance (s : RingHeap) : Decidable (HeapInv s) := by
  unfold HeapInv
  infer_instance

/-- Concrete state after running
`[ins 12, ins 10, pop, pop, ins 5]` from `new`: `start = 2` with one live
element `5` at physical index 2. -/
def cexPreState : RingHeap := ⟨⟨[10, 12, 5, 10], 4⟩, 2, 3, 1⟩

/-- Concrete state after additionally inserting `-5` into `cexPreState`:
the live window is `[5, -5]`, the root is not the minimum. -/
def cexPostState : RingHeap := ⟨⟨[10, 12, 5, -5], 4⟩, 2, 0, 2⟩

/-- Concrete wrapped-window state used as the `grow` witness. -/
def growWitnessState : RingHeap := ⟨⟨[7, 9, 5, 6], 4⟩, 3, 2, 3⟩

/-- Concrete heap used as the `heapify_down` policy witness. -/
def hdWitnessState : RingHeap := ⟨⟨[3, 1, 2], 3⟩, 0, 0, 3⟩

/-- Concrete state after running
`[ins 0, ins 1, ins 5, ins 2, ins 3, pop]` from `new`: its live window is
`[1, 5, 2, 3]`, in which logical index 1 (value 5) exceeds its left child
at logical index 3 (value 3). -/
def c2State : RingHeap := ⟨⟨[0, 1, 5, 2, 3, 2, 2, 2], 8⟩, 1, 5, 4⟩

/-- C1: the claim says that popping to empty always returns the not-yet-
popped inserted values in non-decreasing order.  Evaluating the code on
the insertion sequence `0, 10, 1, 11, 12, 2, 3` (no interleaved pops at
all) refutes this: popping to empty returns `0, 1, 2, 10, 3, 11, 12`,
with `10` before `3` — the multiset is right but the order is not the
sorted copy `0, 1, 2, 3, 10, 11, 12`. -/
theorem claim_C1_pop_order_bug :
    (runOps RingHeap.new [Op.ins 0, Op.ins 10, Op.ins 1, Op.ins 11,
        Op.ins 12, Op.ins 2, Op.ins 3, Op.pop, Op.pop, Op.pop, Op.pop,
        Op.pop, Op.pop, Op.pop, Op.pop]).map (fun p => p.2)
      = some [some 0, some 1, some 2, some 10, some 3, some 11, some 12,
          none] := by
  decide

/-- C2: the claim says the binary-heap property over the logical index
space holds after every sequence of `insert`/`pop` calls.  Evaluating the
code on `[ins 0, ins 1, ins 5, ins 2, ins 3, pop]` refutes this: in the
resulting state the element at logical index 1 is `5` and its left child
at logical index `2 * 1 + 1 = 3` is `3`. -/
theorem claim_C2_heap_property_bug :
    (runOps RingHeap.new [Op.ins 0, Op.ins 1, Op.ins 5, Op.ins 2,
        Op.ins 3, Op.pop]).map (fun p => p.1) = some c2State
    ∧ ¬ heapProp c2State := by
  exact ⟨by decide, by decide⟩

/-- C3: the claim says `insert` sifts the newly inserted logical index
upward, swapping while it is strictly smaller than its parent, until
logical index 0 is reached.  Evaluating the code on the reachable state
`cexPreState` (`start = 2`, one live element `5`) refutes this: after
`insert (-5)` the new element sits at logical index 1 with value `-5`
strictly below its parent's value `5` at logical index 0, so the code
performed no swap where the claimed sift requires one (the code sifts
from the slot's physical index `end - 1 = 3` instead, comparing junk
storage, and stops on `i == start` instead of at logical index 0). -/
theorem claim_C3_insert_sift_bug :
    (runOps RingHeap.new [Op.ins 12, Op.ins 10, Op.pop, Op.pop,
        Op.ins 5]).map (fun p => p.1) = some cexPreState
    ∧ cexPreState.insert (-5) = some cexPostState
    ∧ cexPostState.get 0 = 5 ∧ cexPostState.get 1 = -5
    ∧ cexPostState.len = 2 := by
  decide

/-- C5: the claim reproduces the `complex_example` test of the source.
Evaluating the code on its operation sequence refutes it: after
`insert 12, insert 10`, three pops give `10, 12, none` as claimed, but
after then inserting `5, -5, 0` the next pop returns `12` (release-mode
behaviour; in debug mode the run already panics inside `insert (-5)`,
see `claim_C9_assertion_fires`), not the claimed `-5`. -/
theorem claim_C5_scenario_bug :
    (runOps RingHeap.new [Op.ins 12, Op.ins 10, Op.pop, Op.pop, Op.pop,
        Op.ins 5, Op.ins (-5), Op.ins 0, Op.pop]).map (fun p => p.2)
      = some [some 10, some 12, none, some 12] := by
  decide

/-- C9: the claim says the internal accessors are only ever invoked with
in-range logical indices from public operations, so the debug assertions
can never fire.  Evaluating the code refutes this: the state
`cexPreState` is reached from `new` by public operations, and the public
call `insert (-5)` on it invokes `get` with logical index 3 while
`len = 2`, firing the `debug_assert!(i < self.len)` (modelled by
`insert_dbg` returning `none`). -/
theorem claim_C9_assertion_fires :
    (runOps RingHeap.new [Op.ins 12, Op.ins 10, Op.pop, Op.pop,
        Op.ins 5]).map (fun p => p.1) = some cexPreState
    ∧ cexPreState.insert_dbg (-5) = none := by
  decide

/-- C7: `new()` constructs an empty heap over a `Vec` with one allocated
slot (`Vec::with_capacity(1)`; no initialised element), `with_capacity
cap` likewise allocates `cap` slots, and both give `len = start = end =
0` with `pop`/`peek` returning the empty indicator and no mutation. -/
theorem claim_C7_constructors :
    (RingHeap.new.data.alloc = 1 ∧ RingHeap.new.data.elems = []
      ∧ RingHeap.new.start = 0 ∧ RingHeap.new.end_ = 0
      ∧ RingHeap.new.len = 0 ∧ RingHeap.new.pop = (none, RingHeap.new)
      ∧ RingHeap.new.peek = none)
    ∧ ∀ cap : Nat, (RingHeap.with_capacity cap).data.alloc = cap
      ∧ (RingHeap.with_capacity cap).data.elems = []
      ∧ (RingHeap.with_capacity cap).start = 0
      ∧ (RingHeap.with_capacity cap).end_ = 0
      ∧ (RingHeap.with_capacity cap).len = 0
      ∧ (RingHeap.with_capacity cap).pop = (none, RingHeap.with_capacity cap)
      ∧ (RingHeap.with_capacity cap).peek = none := by
  refine ⟨by decide, fun cap => ⟨rfl, rfl, rfl, rfl, rfl, rfl, rfl⟩⟩

/-- Witness for C7 at the concrete capacity 3. -/
theorem claim_C7_witness :
    (RingHeap.with_capacity 3).data.alloc = 3
    ∧ (RingHeap.with_capacity 3).pop = (none, RingHeap.with_capacity 3) :=
  ⟨(claim_C7_constructors.2 3).1, (claim_C7_constructors.2 3).2.2.2.2.2.1⟩

/-- C8: `pop` and `peek` on an empty heap return the absence value and
leave the whole state unchanged (`pop` returns the state itself
untouched; `peek` does not mutate at all, being a function of the
state). -/
theorem claim_C8_empty_pop_peek (s : RingHeap) (h : s.len = 0) :
    s.pop = (none, s) ∧ s.peek = none := by
  unfold RingHeap.pop RingHeap.peek
  rw [h]
  simp

/-- Witness for C8 at the concrete empty state reached by `new`. -/
theorem claim_C8_witness :
    RingHeap.new.len = 0 ∧ RingHeap.new.pop = (none, RingHeap.new)
    ∧ RingHeap.new.peek = none :=
  ⟨rfl, (claim_C8_empty_pop_peek RingHeap.new rfl).1,
    (claim_C8_empty_pop_peek RingHeap.new rfl).2⟩

/-- Swapping does not change the `len` field. -/
theorem RingHeap.swap_len (s : RingHeap) (i j : Nat) :
    (s.swap i j).len = s.len := rfl

/-- The result of `heapifyDownF` does not depend on the fuel, as long as
the fuel exceeds `len - i`; in particular the fuel-0 default of the model
is unreachable from `heapify_down`. -/
theorem heapifyDownF_stable (f g : Nat) (s : RingHeap) (i : Nat)
    (hf : s.len < i + f) (hg : s.len < i + g) :
    RingHeap.heapifyDownF f s i = RingHeap.heapifyDownF g s i := by
  induction f generalizing g s i with
  | zero =>
    cases g with
    | zero => rfl
    | succ g' =>
      simp only [RingHeap.heapifyDownF]
      rw [if_pos (Or.inl (by omega))]
  | succ f' ih =>
    cases g with
    | zero =>
      simp only [RingHeap.heapifyDownF]
      rw [if_pos (Or.inl (by omega))]
    | succ g' =>
      simp only [RingHeap.heapifyDownF]
      by_cases hguard : i > s.len ∨ RingHeap.left_child_idx i ≥ s.len
      · rw [if_pos hguard, if_pos hguard]
      · rw [if_neg hguard, if_neg hguard]
        have hL : RingHeap.left_child_idx i < s.len := by
          rcases Nat.lt_or_ge (RingHeap.left_child_idx i) s.len with h | h
          · exact h
          · exact absurd (Or.inr h) hguard
        have hLi : RingHeap.left_child_idx i = 1 + 2 * i := rfl
        have hRi : RingHeap.right_child_idx i = 2 + 2 * i := rfl
        by_cases hr : RingHeap.right_child_idx i ≥ s.len
        · rw [if_pos hr, if_pos hr]
          by_cases hc : s.get i > s.get (RingHeap.left_child_idx i)
          · rw [if_pos hc, if_pos hc]
            exact ih g' _ _ (by rw [RingHeap.swap_len]; omega)
              (by rw [RingHeap.swap_len]; omega)
          · rw [if_neg hc, if_neg hc]
        · rw [if_neg hr, if_neg hr]
          by_cases hc1 : s.get (RingHeap.left_child_idx i) >
              s.get (RingHeap.right_child_idx i)
              ∧ s.get i > s.get (RingHeap.right_child_idx i)
          · rw [if_pos hc1, if_pos hc1]
            exact ih g' _ _ (by rw [RingHeap.swap_len]; omega)
              (by rw [RingHeap.swap_len]; omega)
          · rw [if_neg hc1, if_neg hc1]
            by_cases hc2 : s.get (RingHeap.right_child_idx i) >
                s.get (RingHeap.left_child_idx i)
                ∧ s.get i > s.get (RingHeap.left_child_idx i)
            · rw [if_pos hc2, if_pos hc2]
              exact ih g' _ _ (by rw [RingHeap.swap_len]; omega)
                (by rw [RingHeap.swap_len]; omega)
            · rw [if_neg hc2, if_neg hc2]

/-- C4: one step of the sift-down at a visited logical index `i` whose
left child exists follows exactly the source's comparison policy: with
only a left child, swap iff the current value exceeds it; with both
children, swap with the right child iff `l > r` and `c > r`, otherwise
swap with the left child iff `r > l` and `c > l`, otherwise (including
all `l = r` tie cases) stop without swapping; after a swap the sift
recurses into the swapped child's index. -/
theorem claim_C4_sift_down_policy (s : RingHeap) (i : Nat)
    (hL : RingHeap.left_child_idx i < s.len) :
    s.heapify_down i =
      if s.len ≤ RingHeap.right_child_idx i then
        (if s.get i > s.get (RingHeap.left_child_idx i) then
          (s.swap i (RingHeap.left_child_idx i)).heapify_down
            (RingHeap.left_child_idx i)
         else s)
      else
        (if s.get (RingHeap.left_child_idx i) >
              s.get (RingHeap.right_child_idx i)
            ∧ s.get i > s.get (RingHeap.right_child_idx i) then
          (s.swap i (RingHeap.right_child_idx i)).heapify_down
            (RingHeap.right_child_idx i)
         else if s.get (RingHeap.right_child_idx i) >
              s.get (RingHeap.left_child_idx i)
            ∧ s.get i > s.get (RingHeap.left_child_idx i) then
          (s.swap i (RingHeap.left_child_idx i)).heapify_down
            (RingHeap.left_child_idx i)
         else s) := by
  have hLi : RingHeap.left_child_idx i = 1 + 2 * i := rfl
  have hguard : ¬(i > s.len ∨ RingHeap.left_child_idx i ≥ s.len) := by
    push_neg
    omega
  have hstabL : RingHeap.heapifyDownF s.len
      (s.swap i (RingHeap.left_child_idx i)) (RingHeap.left_child_idx i)
      = (s.swap i (RingHeap.left_child_idx i)).heapify_down
          (RingHeap.left_child_idx i) := by
    unfold RingHeap.heapify_down
    exact heapifyDownF_stable _ _ _ _ (by rw [RingHeap.swap_len]; omega)
      (by rw [RingHeap.swap_len]; omega)
  have hstabR : RingHeap.heapifyDownF s.len
      (s.swap i (RingHeap.right_child_idx i)) (RingHeap.right_child_idx i)
      = (s.swap i (RingHeap.right_child_idx i)).heapify_down
          (RingHeap.right_child_idx i) := by
    have hRi : RingHeap.right_child_idx i = 2 + 2 * i := rfl
    unfold RingHeap.heapify_down
    exact heapifyDownF_stable _ _ _ _ (by rw [RingHeap.swap_len]; omega)
      (by rw [RingHeap.swap_len]; omega)
  conv =>
    lhs
    rw [RingHeap.heapify_down]
  simp only [RingHeap.heapifyDownF]
  rw [if_neg hguard, hstabL, hstabR]

/-- Witness for C4 at a concrete three-element heap `[3, 1, 2]`: the
policy swaps with the left child and recursion stops, giving `[1, 3, 2]`.
-/
theorem claim_C4_witness :
    hdWitnessState.heapify_down 0 = (⟨⟨[1, 3, 2], 3⟩, 0, 0, 3⟩ : RingHeap) :=
  (claim_C4_sift_down_policy hdWitnessState 0 (by decide)).trans (by decide)

/-- Moving the element at index `j` to the head while writing `x` at `j`
permutes `x :: t`. -/
theorem list_swap_core (t : List Int) (j : Nat) (x : Int)
    (hj : j < t.length) :
    (t.getD j 0 :: t.set j x).Perm (x :: t) := by
  induction t generalizing j with
  | nil => simp at hj
  | cons y u ih =>
    cases j with
    | zero =>
      simp only [List.getD_cons_zero, List.set_cons_zero]
      exact List.Perm.swap x y u
    | succ j' =>
      simp only [List.getD_cons_succ, List.set_cons_succ]
      exact ((List.Perm.swap y (u.getD j' 0) (u.set j' x)).trans
        ((ih j' (by simpa using hj)).cons y)).trans (List.Perm.swap x y u)

/-- The two-write pattern of `Vec::swap` (`set i l[j]` then `set j l[i]`)
permutes the list when both indices are in range. -/
theorem list_set_set_perm (l : List Int) (a b : Nat)
    (ha : a < l.length) (hb : b < l.length) :
    ((l.set a (l.getD b 0)).set b (l.getD a 0)).Perm l := by
  induction l generalizing a b with
  | nil => simp at ha
  | cons y u ih =>
    cases a with
    | zero =>
      cases b with
      | zero => simp
      | succ b' =>
        simp only [List.getD_cons_zero, List.getD_cons_succ,
          List.set_cons_zero, List.set_cons_succ]
        exact list_swap_core u b' y (by simpa using hb)
    | succ a' =>
      cases b with
      | zero =>
        simp only [List.getD_cons_zero, List.getD_cons_succ,
          List.set_cons_zero, List.set_cons_succ]
        exact list_swap_core u a' y (by simpa using ha)
      | succ b' =>
        simp only [List.getD_cons_succ, List.set_cons_succ]
        exact (ih a' b' (by simpa using ha) (by simpa using hb)).cons y

/-- A `swap` of any two logical indices permutes the stored elements (its
two physical indices are the `real_idx` reductions, in range whenever the
storage is non-empty, and a no-op on empty storage). -/
theorem RingHeap.swap_perm (s : RingHeap) (i j : Nat) :
    ((s.swap i j).data.elems).Perm s.data.elems := by
  unfold RingHeap.swap RVec.swapE
  by_cases h0 : s.data.elems.length = 0
  · have he : s.data.elems = [] := List.length_eq_zero.mp h0
    simp [he]
  · have hpos : 0 < s.data.elems.length := Nat.pos_of_ne_zero h0
    exact list_set_set_perm _ _ _ (Nat.mod_lt _ hpos) (Nat.mod_lt _ hpos)

/-- A `swap` changes only the stored elements, never the bookkeeping
fields or the storage size. -/
theorem RingHeap.swap_frame (s : RingHeap) (i j : Nat) :
    (s.swap i j).start = s.start ∧ (s.swap i j).end_ = s.end_
    ∧ (s.swap i j).len = s.len ∧ (s.swap i j).data.alloc = s.data.alloc :=
  ⟨rfl, rfl, rfl, rfl⟩

/-- `heapifyDownF` only permutes the stored elements, leaving `start`,
`end`, `len` and the allocation unchanged. -/
theorem heapifyDownF_frame (f : Nat) (s : RingHeap) (i : Nat) :
    (RingHeap.heapifyDownF f s i).start = s.start
    ∧ (RingHeap.heapifyDownF f s i).end_ = s.end_
    ∧ (RingHeap.heapifyDownF f s i).len = s.len
    ∧ (RingHeap.heapifyDownF f s i).data.alloc = s.data.alloc
    ∧ ((RingHeap.heapifyDownF f s i).data.elems).Perm s.data.elems := by
  induction f generalizing s i with
  | zero => exact ⟨rfl, rfl, rfl, rfl, List.Perm.refl _⟩
  | succ f' ih =>
    simp only [RingHeap.heapifyDownF]
    by_cases hguard : i > s.len ∨ RingHeap.left_child_idx i ≥ s.len
    · rw [if_pos hguard]
      exact ⟨rfl, rfl, rfl, rfl, List.Perm.refl _⟩
    · rw [if_neg hguard]
      have step : ∀ c : Nat,
          (RingHeap.heapifyDownF f' (s.swap i c) c).start = s.start
          ∧ (RingHeap.heapifyDownF f' (s.swap i c) c).end_ = s.end_
          ∧ (RingHeap.heapifyDownF f' (s.swap i c) c).len = s.len
          ∧ (RingHeap.heapifyDownF f' (s.swap i c) c).data.alloc
              = s.data.alloc
          ∧ ((RingHeap.heapifyDownF f' (s.swap i c) c).data.elems).Perm
              s.data.elems := by
        intro c
        obtain ⟨h1, h2, h3, h4, h5⟩ := ih (s.swap i c) c
        exact ⟨h1, h2, h3, h4, h5.trans (RingHeap.swap_perm s i c)⟩
      by_cases hr : RingHeap.right_child_idx i ≥ s.len
      · rw [if_pos hr]
        by_cases hc : s.get i > s.get (RingHeap.left_child_idx i)
        · rw [if_pos hc]
          exact step _
        · rw [if_neg hc]
          exact ⟨rfl, rfl, rfl, rfl, List.Perm.refl _⟩
      · rw [if_neg hr]
        by_cases hc1 : s.get (RingHeap.left_child_idx i) >
            s.get (RingHeap.right_child_idx i)
            ∧ s.get i > s.get (RingHeap.right_child_idx i)
        · rw [if_pos hc1]
          exact step _
        · rw [if_neg hc1]
          by_cases hc2 : s.get (RingHeap.right_child_idx i) >
              s.get (RingHeap.left_child_idx i)
              ∧ s.get i > s.get (RingHeap.left_child_idx i)
          · rw [if_pos hc2]
            exact step _
          · rw [if_neg hc2]
            exact ⟨rfl, rfl, rfl, rfl, List.Perm.refl _⟩

/-- C10: `pop` leaves `end` and the storage length (and allocation)
unchanged; it only advances `start` with wrap-around, decrements `len`,
and permutes the stored elements via the sift-down swaps — it never
allocates, never shrinks, and never writes a value that was not already
in storage. -/
theorem claim_C10_pop_frame (s : RingHeap) :
    (s.pop).2.end_ = s.end_
    ∧ (s.pop).2.data.elems.length = s.data.elems.length
    ∧ (s.pop).2.data.alloc = s.data.alloc
    ∧ ((s.pop).2.data.elems).Perm s.data.elems
    ∧ (s.pop).2.start
        = (if 0 < s.len then (s.start + 1) % s.data.elems.length
           else s.start)
    ∧ (s.pop).2.len = (if 0 < s.len then s.len - 1 else s.len) := by
  unfold RingHeap.pop
  by_cases h : 0 < s.len
  · rw [if_pos h, if_pos h, if_pos h]
    unfold RingHeap.heapify_down
    obtain ⟨h1, h2, h3, h4, h5⟩ := heapifyDownF_frame _
      { s with start := (s.start + 1) % s.data.elems.length,
               len := s.len - 1 } 0
    exact ⟨h2, h5.length_eq, h4, h5, h1, h3⟩
  · rw [if_neg h, if_neg h, if_neg h]
    exact ⟨rfl, rfl, rfl, List.Perm.refl _, rfl, rfl⟩

/-- Reading a `replicate` inside its length gives the replicated value. -/
theorem list_getD_replicate (n k : Nat) (x : Int) (h : k < n) :
    (List.replicate n x).getD k 0 = x := by
  rw [List.getD_eq_getElem?_getD, List.getElem?_replicate]
  simp [h]

/-- Reading a `set` list away from the written index. -/
theorem list_getD_set_ne (l : List Int) (i k : Nat) (x : Int)
    (hik : i ≠ k) : (l.set i x).getD k 0 = l.getD k 0 := by
  rw [List.getD_eq_getElem?_getD, List.getElem?_set_ne hik,
    ← List.getD_eq_getElem?_getD]

/-- Reading a `set` list at the written index. -/
theorem list_getD_set_self (l : List Int) (i : Nat) (x : Int)
    (hi : i < l.length) : (l.set i x).getD i 0 = x := by
  rw [List.getD_eq_getElem?_getD, List.getElem?_set_self (by simpa using hi)]
  simp

/-- `listCopyWithin` preserves the length. -/
theorem listCopyWithin_length (l : List Int) (src dst n : Nat) :
    (listCopyWithin l src dst n).length = l.length := by
  induction n with
  | zero => rfl
  | succ n' ih => simp [listCopyWithin, List.length_set, ih]

/-- Characterisation of `listCopyWithin` when the destination region is
in bounds: positions in `[dst, dst + n)` read the source region, all
others are untouched. -/
theorem listCopyWithin_getD (l : List Int) (src dst n k : Nat)
    (h : dst + n ≤ l.length) :
    (listCopyWithin l src dst n).getD k 0
      = if dst ≤ k ∧ k < dst + n then l.getD (src + (k - dst)) 0
        else l.getD k 0 := by
  induction n with
  | zero =>
    rw [if_neg (by omega)]
    rfl
  | succ n' ih =>
    show ((listCopyWithin l src dst n').set (dst + n')
        (l.getD (src + n') 0)).getD k 0 = _
    by_cases hk : k = dst + n'
    · subst hk
      rw [list_getD_set_self _ _ _
        (by rw [listCopyWithin_length]; omega)]
      rw [if_pos (by omega)]
      congr 1
      omega
    · rw [list_getD_set_ne _ _ _ _ (fun hc => hk hc.symm)]
      rw [ih (by omega)]
      by_cases hin : dst ≤ k ∧ k < dst + n'
      · rw [if_pos hin, if_pos (by omega)]
      · rw [if_neg hin, if_neg (by omega)]

/-- The elements of an extending `resize` are the old elements followed
by copies of the filler. -/
theorem RVec_resize_elems (v : RVec) (n : Nat) (x : Int)
    (h : v.elems.length ≤ n) :
    (v.resize n x).elems
      = v.elems ++ List.replicate (n - v.elems.length) x := by
  unfold RVec.resize
  by_cases hc : n ≤ v.elems.length
  · rw [if_pos hc]
    have hn : n - v.elems.length = 0 := by omega
    simp [List.take_of_length_le h, hn]
  · rw [if_neg hc]

/-- Length of an extending `resize`. -/
theorem RVec_resize_length (v : RVec) (n : Nat) (x : Int)
    (h : v.elems.length ≤ n) : (v.resize n x).elems.length = n := by
  rw [RVec_resize_elems v n x h]
  simp [List.length_replicate]
  omega

/-- Wrapping `usize` subtraction agrees with exact subtraction when no
underflow occurs. -/
theorem usizeSub_eq (a b : Nat) (hb : b ≤ a) (ha : a < usizeW) :
    usizeSub a b = a - b := by
  have hW : usizeW = 18446744073709551616 := rfl
  unfold usizeSub
  have h1 : a + (usizeW - b) = usizeW + (a - b) := by omega
  rw [h1, Nat.add_mod_left]
  exact Nat.mod_eq_of_lt (by omega)

/-- Reduction of `p % N` in the single-wrap range. -/
theorem mod_sub_of_lt (p N : Nat) (h1 : N ≤ p) (h2 : p < 2 * N) :
    p % N = p - N := by
  rw [Nat.mod_eq_sub_mod h1]
  exact Nat.mod_eq_of_lt (by omega)

/-- C6: when an insert would make `len + 1 >= capacity`, `push` grows
first; growth doubles the capacity (at least to 2), fills the newly
created slots with the inserted value, relocates the wrapped tail of
`old_capacity - start` elements to the top of the extended buffer
(setting `start` to `new_capacity - (old_capacity - start)`) when the
window wraps, leaves `len` unchanged, and preserves all live elements at
their logical indices. -/
theorem claim_C6_grow_spec (s : RingHeap) (x : Int) (hInv : HeapInv s) :
    (s.grow x).data.elems.length = max 2 (2 * s.data.elems.length)
    ∧ (s.grow x).len = s.len
    ∧ (s.len + 1 ≥ s.data.elems.length →
        s.push x = { s.grow x with
          data := (s.grow x).data.setE (s.grow x).end_ x,
          end_ := ((s.grow x).end_ + 1) % (s.grow x).data.elems.length,
          len := (s.grow x).len + 1 })
    ∧ (s.start > s.end_ →
        (s.grow x).start = max 2 (2 * s.data.elems.length)
          - (s.data.elems.length - s.start))
    ∧ (s.start ≤ s.end_ → (s.grow x).start = s.start)
    ∧ (∀ i, i < s.len → (s.grow x).get i = s.get i)
    ∧ (∀ k, s.data.elems.length ≤ k →
        k < max 2 (2 * s.data.elems.length) →
        (s.start > s.end_ →
          k < max 2 (2 * s.data.elems.length)
            - (s.data.elems.length - s.start)) →
        (s.grow x).data.elems.getD k 0 = x)
    ∧ (s.start > s.end_ → ∀ j, j < s.data.elems.length - s.start →
        (s.grow x).data.elems.getD
          (max 2 (2 * s.data.elems.length)
            - (s.data.elems.length - s.start) + j) 0
          = s.data.elems.getD (s.start + j) 0) := by
  obtain ⟨hz, hp, hend, hW62⟩ := hInv
  have hW : usizeW = 18446744073709551616 := rfl
  have hLle : s.data.elems.length ≤ max 2 (2 * s.data.elems.length) := by
    omega
  have hdlen : (s.data.resize (max 2 (2 * s.data.elems.length)) x).elems.length
      = max 2 (2 * s.data.elems.length) :=
    RVec_resize_length _ _ _ hLle
  have hdget : ∀ k,
      (s.data.resize (max 2 (2 * s.data.elems.length)) x).elems.getD k 0
        = if k < s.data.elems.length then s.data.elems.getD k 0
          else if k < max 2 (2 * s.data.elems.length) then x else 0 := by
    intro k
    rw [RVec_resize_elems _ _ _ hLle]
    by_cases h1 : k < s.data.elems.length
    · rw [List.getD_append _ _ _ _ h1, if_pos h1]
    · rw [List.getD_append_right _ _ _ _ (by omega), if_neg h1]
      by_cases h2 : k < max 2 (2 * s.data.elems.length)
      · rw [if_pos h2, list_getD_replicate _ _ _ (by omega)]
      · rw [if_neg h2, List.getD_eq_default _ _
          (by simp only [List.length_replicate]; omega)]
  have hpush : s.len + 1 ≥ s.data.elems.length →
      s.push x = { s.grow x with
        data := (s.grow x).data.setE (s.grow x).end_ x,
        end_ := ((s.grow x).end_ + 1) % (s.grow x).data.elems.length,
        len := (s.grow x).len + 1 } := by
    intro hcond
    simp only [RingHeap.push]
    rw [if_pos hcond]
    have hls : ((s.grow x).data.setE (s.grow x).end_ x).elems.length
        = (s.grow x).data.elems.length := by
      simp [RVec.setE, List.length_set]
    rw [hls]
  by_cases hw : s.start > s.end_
  · -- the live window wraps
    have hL0 : 0 < s.data.elems.length := by
      rcases Nat.eq_zero_or_pos s.data.elems.length with h0 | h
      · obtain ⟨h1, h2, h3⟩ := hz h0
        omega
      · exact h
    obtain ⟨hsl, hll⟩ := hp hL0
    have hN : max 2 (2 * s.data.elems.length) = 2 * s.data.elems.length := by
      omega
    have hwrapend : s.data.elems.length ≤ s.start + s.len
        ∧ s.end_ = s.start + s.len - s.data.elems.length := by
      by_cases hc : s.start + s.len < s.data.elems.length
      · rw [Nat.mod_eq_of_lt hc] at hend
        omega
      · rw [mod_sub_of_lt _ _ (by omega) (by omega)] at hend
        exact ⟨by omega, hend⟩
    obtain ⟨hge, hend3⟩ := hwrapend
    have hmovelen : s.data.elems.length - s.start ≤ s.len := by omega
    have hsub1 : usizeSub s.data.elems.length s.start
        = s.data.elems.length - s.start :=
      usizeSub_eq _ _ (by omega) (by omega)
    have hsub2 : usizeSub (max 2 (2 * s.data.elems.length))
        (s.data.elems.length - s.start)
        = s.data.elems.length + s.start := by
      rw [usizeSub_eq _ _ (by omega) (by omega)]
      omega
    have hgrow : s.grow x = { s with
        data := RVec.copyWithin
          (s.data.resize (max 2 (2 * s.data.elems.length)) x)
          s.start (s.data.elems.length + s.start)
          (s.data.elems.length - s.start),
        start := s.data.elems.length + s.start } := by
      simp only [RingHeap.grow]
      rw [if_pos hw, hsub1, hsub2]
    have helems : (s.grow x).data.elems = listCopyWithin
        (s.data.resize (max 2 (2 * s.data.elems.length)) x).elems
        s.start (s.data.elems.length + s.start)
        (s.data.elems.length - s.start) := by
      rw [hgrow]
      rfl
    have hglen : (s.grow x).data.elems.length
        = max 2 (2 * s.data.elems.length) := by
      rw [helems, listCopyWithin_length, hdlen]
    have hgetk : ∀ k, (s.grow x).data.elems.getD k 0
        = if s.data.elems.length + s.start ≤ k
            ∧ k < s.data.elems.length + s.start
                + (s.data.elems.length - s.start) then
            (s.data.resize (max 2 (2 * s.data.elems.length)) x).elems.getD
              (s.start + (k - (s.data.elems.length + s.start))) 0
          else
            (s.data.resize (max 2 (2 * s.data.elems.length)) x).elems.getD
              k 0 := by
      intro k
      rw [helems]
      exact listCopyWithin_getD _ _ _ _ _ (by rw [hdlen]; omega)
    refine ⟨hglen, by rw [hgrow], hpush, ?_, ?_, ?_, ?_, ?_⟩
    · intro _
      rw [hgrow]
      show s.data.elems.length + s.start = _
      omega
    · intro hle
      exact absurd hle (not_le.mpr hw)
    · intro i hi
      have hstart' : (s.grow x).start = s.data.elems.length + s.start := by
        rw [hgrow]
      simp only [RingHeap.get, RingHeap.real_idx, hstart', hglen]
      by_cases hi2 : i < s.data.elems.length - s.start
      · rw [Nat.mod_eq_of_lt (show s.data.elems.length + s.start + i < usizeW
            by omega),
          Nat.mod_eq_of_lt (show s.data.elems.length + s.start + i
            < max 2 (2 * s.data.elems.length) by omega),
          hgetk, if_pos (by constructor <;> omega)]
        rw [show s.start + (s.data.elems.length + s.start + i
            - (s.data.elems.length + s.start)) = s.start + i by omega]
        rw [hdget, if_pos (by omega)]
        rw [Nat.mod_eq_of_lt (show s.start + i < usizeW by omega),
          Nat.mod_eq_of_lt (show s.start + i < s.data.elems.length by omega)]
      · rw [Nat.mod_eq_of_lt (show s.data.elems.length + s.start + i < usizeW
            by omega),
          mod_sub_of_lt _ _ (by omega) (by omega)]
        rw [show s.data.elems.length + s.start + i
            - max 2 (2 * s.data.elems.length)
            = s.start + i - s.data.elems.length by omega]
        rw [hgetk, if_neg (by omega), hdget, if_pos (by omega)]
        rw [Nat.mod_eq_of_lt (show s.start + i < usizeW by omega),
          mod_sub_of_lt _ _ (by omega) (by omega)]
    · intro k hk1 hk2 hk3
      have hk3' := hk3 hw
      rw [hgetk, if_neg (by omega), hdget, if_neg (by omega),
        if_pos (by omega)]
    · intro _ j hj
      rw [show max 2 (2 * s.data.elems.length)
          - (s.data.elems.length - s.start) + j
          = s.data.elems.length + s.start + j by omega]
      rw [hgetk, if_pos (by constructor <;> omega)]
      rw [show s.start + (s.data.elems.length + s.start + j
          - (s.data.elems.length + s.start)) = s.start + j by omega]
      rw [hdget, if_pos (by omega)]
  · -- the live window does not wrap
    have hgrow : s.grow x = { s with
        data := s.data.resize (max 2 (2 * s.data.elems.length)) x } := by
      simp only [RingHeap.grow]
      rw [if_neg hw]
    have hglen : (s.grow x).data.elems.length
        = max 2 (2 * s.data.elems.length) := by
      rw [hgrow]
      exact hdlen
    by_cases hL0 : s.data.elems.length = 0
    · obtain ⟨hs0, he0, hl0⟩ := hz hL0
      refine ⟨hglen, by rw [hgrow], hpush, ?_, ?_, ?_, ?_, ?_⟩
      · intro hcond
        exact absurd hcond (by omega)
      · intro _
        rw [hgrow]
      · intro i hi
        exact absurd hi (by omega)
      · intro k hk1 hk2 _
        rw [hgrow]
        show (s.data.resize (max 2 (2 * s.data.elems.length)) x).elems.getD
          k 0 = x
        rw [hdget, if_neg (by omega), if_pos (by omega)]
      · intro hcond
        exact absurd hcond (by omega)
    · have hL0' : 0 < s.data.elems.length := Nat.pos_of_ne_zero hL0
      obtain ⟨hsl, hll⟩ := hp hL0'
      have hlt : s.start + s.len < s.data.elems.length := by
        by_contra hc
        push_neg at hc
        rw [mod_sub_of_lt _ _ hc (by omega)] at hend
        omega
      refine ⟨hglen, by rw [hgrow], hpush, ?_, ?_, ?_, ?_, ?_⟩
      · intro hcond
        exact absurd hcond hw
      · intro _
        rw [hgrow]
      · intro i hi
        have hstart' : (s.grow x).start = s.start := by
          rw [hgrow]
        have helems' : (s.grow x).data.elems
            = (s.data.resize (max 2 (2 * s.data.elems.length)) x).elems := by
          rw [hgrow]
        simp only [RingHeap.get, RingHeap.real_idx, hstart', helems', hdlen]
        rw [Nat.mod_eq_of_lt (show s.start + i < usizeW by omega),
          Nat.mod_eq_of_lt (show s.start + i < max 2 (2 * s.data.elems.length)
            by omega),
          Nat.mod_eq_of_lt (show s.start + i < s.data.elems.length by omega),
          hdget, if_pos (by omega)]
      · intro k hk1 hk2 _
        rw [hgrow]
        show (s.data.resize (max 2 (2 * s.data.elems.length)) x).elems.getD
          k 0 = x
        rw [hdget, if_neg (by omega), if_pos (by omega)]
      · intro hcond
        exact absurd hcond hw

/-- Witness for C6 at a concrete wrapped-window state: capacity 4,
`start = 3 > end = 2`, live window `[6, 7, 9]`; growth doubles to 8,
relocates the one-element tail to the top (`start = 7`), fills the other
new slots with the inserted value 42, and preserves the live window. -/
theorem claim_C6_witness :
    HeapInv growWitnessState
    ∧ (growWitnessState.grow 42).data.elems.length = 8
    ∧ (growWitnessState.grow 42).start = 7
    ∧ (growWitnessState.grow 42).get 0 = growWitnessState.get 0
    ∧ (growWitnessState.grow 42).data.elems.getD 4 0 = 42 :=
  ⟨by decide,
    (claim_C6_grow_spec growWitnessState 42 (by decide)).1.trans (by decide),
    ((claim_C6_grow_spec growWitnessState 42 (by decide)).2.2.2.1
      (by decide)).trans (by decide),
    (claim_C6_grow_spec growWitnessState 42 (by decide)).2.2.2.2.2.1 0
      (by decide),
    (claim_C6_grow_spec growWitnessState 42 (by decide)).2.2.2.2.2.2.1 4
      (by decide) (by decide) (by decide)⟩

/-- Witness for C10 at the concrete state `cexPostState` (live window
`[5, -5]`). -/
theorem claim_C10_witness :
    (cexPostState.pop).2.end_ = cexPostState.end_
    ∧ ((cexPostState.pop).2.data.elems).Perm cexPostState.data.elems
    ∧ (cexPostState.pop).2.len
        = (if 0 < cexPostState.len then cexPostState.len - 1
           else cexPostState.len) :=
  ⟨(claim_C10_pop_frame cexPostState).1,
    (claim_C10_pop_frame cexPostState).2.2.2.1,
    (claim_C10_pop_frame cexPostState).2.2.2.2.2⟩
